import Mathlib

/-!
Shallow embedding of the inventory service in
`src/backend-course-2025-6/main.js`: the JSON-file record store
(`readInv` / `writeInv`), ID assignment, and the `POST /register`,
`GET|POST /search`, `PUT /inventory/:id` and `DELETE /inventory/:id`
handlers, together with proofs of the store's functional properties.
-/

/-- JSON values at the level relevant to this service, as produced by
`JSON.stringify` and consumed by `JSON.parse`. -/
inductive Json where
  | null : Json
  | num (n : Int) : Json
  | str (s : String) : Json
  | arr (elems : List Json) : Json
  | obj (fields : List (String × Json)) : Json

/-- One inventory record, as built by the `POST /register` handler
(`main.js` lines 148-154).  `description` is `none` when the request had no
`description` field (JS `undefined`); `photo` and `photoUrl` are `none`
when the JS value is `null`. -/
structure Record where
  id : Int
  name : String
  description : Option String
  photo : Option String
  photoUrl : Option String
deriving DecidableEq

/-- Placeholder record for total indexing (`List.getD`); every use below is
guarded by an index known to be in bounds, so it is never observed. -/
def dummyRecord : Record := ⟨0, "", none, none, none⟩

/-- A JS `string | null` value as JSON. -/
def optStrJson : Option String → Json
  | none => Json.null
  | some s => Json.str s

/-- `JSON.stringify` of one record, at the level of JSON values.  A
`description` that is JS `undefined` is omitted (`JSON.stringify` drops
keys whose value is `undefined`), while `photo` / `photoUrl` are always
present, written as `null` when absent, exactly as the handler builds
the object. -/
def encodeRecord (r : Record) : Json :=
  Json.obj ([("id", Json.num r.id), ("name", Json.str r.name)]
    ++ (match r.description with
        | some d => [("description", Json.str d)]
        | none => [])
    ++ [("photo", optStrJson r.photo), ("photoUrl", optStrJson r.photoUrl)])

/-- `JSON.stringify` of the whole store: a JSON array of record objects
(`writeInv`, `main.js` lines 59-61). -/
def encodeInv (rs : List Record) : Json :=
  Json.arr (rs.map encodeRecord)

/-- Reading back a `string | null` field. -/
def decodeOptStr : Option Json → Option (Option String)
  | some Json.null => some none
  | some (Json.str s) => some (some s)
  | _ => none

/-- Reading back the `description` field: an absent key is JS `undefined`. -/
def decodeDesc : Option Json → Option (Option String)
  | none => some none
  | some (Json.str s) => some (some s)
  | _ => none

/-- Reading one record object back from JSON.  The source performs no shape
validation (`JSON.parse` returns the raw value); this decoder types exactly
the documents `encodeRecord` can produce. -/
def decodeRecord : Json → Option Record
  | Json.obj fields => do
      let idj ← fields.lookup "id"
      let id ← match idj with | Json.num n => some n | _ => none
      let namej ← fields.lookup "name"
      let name ← match namej with | Json.str s => some s | _ => none
      let description ← decodeDesc (fields.lookup "description")
      let photo ← decodeOptStr (fields.lookup "photo")
      let photoUrl ← decodeOptStr (fields.lookup "photoUrl")
      some { id := id, name := name, description := description,
             photo := photo, photoUrl := photoUrl }
  | _ => none

/-- Reading a list of record objects back, element by element. -/
def decodeList : List Json → Option (List Record)
  | [] => some []
  | j :: js => do
      let r ← decodeRecord j
      let rs ← decodeList js
      some (r :: rs)

/-- Reading the whole store back from JSON. -/
def decodeInv : Json → Option (List Record)
  | Json.arr es => decodeList es
  | _ => none

/-- The state of the persisted file `inventory.json`.  `missing`,
`unreadable` and `malformed` are the states in which `fs.readFileSync` or
`JSON.parse` throws inside `readInv` (`main.js` lines 54-57). -/
inductive FileState where
  | missing : FileState
  | unreadable : FileState
  | malformed : FileState
  | json (j : Json) : FileState

/-- `readInv` (`main.js` lines 54-57): `try { return JSON.parse(...) }
catch { return [] }`.  Any state in which reading or parsing throws yields
the empty store; the catch never rethrows.  The source returns the parsed
value without shape validation; the embedding types the store, so a
parseable document outside the record-array format also reads as `[]`. -/
def readInv (f : FileState) : List Record :=
  match f with
  | FileState.json j => (decodeInv j).getD []
  | _ => []

/-- `writeInv` (`main.js` lines 59-61): overwrite the file with the
serialized store (pretty-printing does not change the JSON value). -/
def writeInv (data : List Record) : FileState :=
  FileState.json (encodeInv data)

theorem decodeRecord_encodeRecord (r : Record) :
    decodeRecord (encodeRecord r) = some r := by
  rcases r with ⟨id, name, description, photo, photoUrl⟩
  rcases description with _ | d <;> rcases photo with _ | p <;>
    rcases photoUrl with _ | u <;> rfl

theorem decodeInv_encodeInv (rs : List Record) :
    decodeInv (encodeInv rs) = some rs := by
  induction rs with
  | nil => rfl
  | cons r rs ih =>
      have ih' : decodeList (rs.map encodeRecord) = some rs := by
        simpa [encodeInv, decodeInv] using ih
      simp [encodeInv, decodeInv, decodeList, decodeRecord_encodeRecord, ih']

theorem readInv_writeInv (rs : List Record) : readInv (writeInv rs) = rs := by
  simp [readInv, writeInv, decodeInv_encodeInv]

/-- JS truthiness of a `string | undefined` value: `undefined` and the
empty string are falsy, every other string is truthy. -/
def jsTruthyOptStr : Option String → Bool
  | none => false
  | some s => s != ""

/-- JS string coercion of a `string | undefined` value, as performed by
`+=` in `doSearch`: `undefined` coerces to the string `"undefined"`. -/
def jsCoerceStr : Option String → String
  | none => "undefined"
  | some s => s

/-- ID assignment at registration (`main.js` line 142):
`inv.length ? Math.max(...inv.map(i => i.id)) + 1 : 1`. -/
def nextId (inv : List Record) : Int :=
  match inv with
  | [] => 1
  | i :: rest => (rest.map Record.id).foldl max i.id + 1

/-- The photo URL advertised for a record (`main.js` lines 144-146). -/
def photoUrlFor (host port : String) (id : Int) : String :=
  "http://" ++ host ++ ":" ++ port ++ "/inventory/" ++ toString id ++ "/photo"

/-- The multipart payload of `POST /register`: `inventory_name` and
`description` are form fields (`none` = absent, JS `undefined`), `filePath`
is the path multer stored the uploaded `photo` at (`req.file.path`;
`none` when no file was uploaded). -/
structure RegisterReq where
  inventory_name : Option String
  description : Option String
  filePath : Option String
deriving DecidableEq

/-- The JSON body of `PUT /inventory/:id`: each field is applied only when
present (`!== undefined`). -/
structure UpdateReq where
  name : Option String
  description : Option String
deriving DecidableEq

/-- The handler responses the embedded routes can produce. -/
inductive HResp where
  | created (item : Record) : HResp
  | okUpdated (item : Record) : HResp
  | okDeleted : HResp
  | badRequest : HResp
  | notFound : HResp
deriving DecidableEq

/-- The record object built by `POST /register` (`main.js` lines 142-154)
from the current store contents and the request. -/
def regItem (host port : String) (inv : List Record) (req : RegisterReq) :
    Record :=
  { id := nextId inv
    name := req.inventory_name.getD ""
    description := req.description
    photo := req.filePath
    photoUrl := match req.filePath with
      | some _ => some (photoUrlFor host port (nextId inv))
      | none => none }

/-- `POST /register` (`main.js` lines 137-160).  The guard is the source's
`if (!req.body.inventory_name) return 400` with the branches swapped: a
truthy name proceeds, a falsy one is rejected with no write.  On success
the new record is appended (`inv.push`) and the store rewritten.  In the
success branch `inventory_name` is a truthy string, so `getD ""` in
`regItem` is never the default. -/
def postRegister (host port : String) (f : FileState) (req : RegisterReq) :
    HResp × FileState :=
  if jsTruthyOptStr req.inventory_name then
    (HResp.created (regItem host port (readInv f) req),
     writeInv (readInv f ++ [regItem host port (readInv f) req]))
  else (HResp.badRequest, f)

/-- The photo-inclusion flag reaching `doSearch`: a boolean (JSON body), a
string (query or form field), or absent. -/
inductive FlagVal where
  | bool (b : Bool) : FlagVal
  | str (s : String) : FlagVal
  | undef : FlagVal
deriving DecidableEq

/-- The flag test in `doSearch` (`main.js` line 189):
`withPhoto === 'on' || withPhoto === 'true' || withPhoto === true`. -/
def flagTruthy (v : FlagVal) : Bool :=
  decide (v = FlagVal.str "on") || decide (v = FlagVal.str "true")
    || decide (v = FlagVal.bool true)

/-- `doSearch` (`main.js` lines 183-196): look the record up, spread it
into a fresh object, and append ` (Photo: <photoUrl>)` to its description
when the flag is accepted and `resp.photoUrl` is truthy.  The first
component is the response (`none` = 404 Not found); the second is the file
state, returned unchanged because the handler never writes. -/
def doSearch (f : FileState) (id : Int) (withPhoto : FlagVal) :
    Option Record × FileState :=
  match (readInv f).find? (fun i => i.id == id) with
  | none => (none, f)
  | some item =>
      if flagTruthy withPhoto then
        if jsTruthyOptStr item.photoUrl then
          (some { item with description := some (jsCoerceStr item.description
              ++ " (Photo: " ++ item.photoUrl.getD "" ++ ")") }, f)
        else (some item, f)
      else (some item, f)

/-- JS `Array.prototype.findIndex`: index of the first element satisfying
the predicate (`none` for the source's `-1`). -/
def jsFindIndex (p : Record → Bool) : List Record → Option Nat
  | [] => none
  | r :: rest => if p r then some 0 else (jsFindIndex p rest).map (· + 1)

/-- `PUT /inventory/:id` (`main.js` lines 231-243): 404 with no write when
the ID is absent; otherwise overwrite `name` / `description` with the body
fields that are present and rewrite the store. -/
def putInventory (f : FileState) (id : Int) (req : UpdateReq) :
    HResp × FileState :=
  let inv := readInv f
  match jsFindIndex (fun i => i.id == id) inv with
  | none => (HResp.notFound, f)
  | some idx =>
      let item := inv.getD idx dummyRecord
      let item2 := { item with
        name := req.name.getD item.name
        description := match req.description with
          | some d => some d
          | none => item.description }
      (HResp.okUpdated item2, writeInv (inv.set idx item2))

/-- `DELETE /inventory/:id` (`main.js` lines 260-274).  The photo file
system is modelled as the list of existing paths: `existsSync` is
membership, `unlinkSync` removes the path (its errors are swallowed by the
source's empty catch).  The guard `inv[idx].photo && existsSync(...)`
requires a truthy (non-null, non-empty) path. -/
def deleteInventory (f : FileState) (pfs : List String) (id : Int) :
    HResp × FileState × List String :=
  let inv := readInv f
  match jsFindIndex (fun i => i.id == id) inv with
  | none => (HResp.notFound, f, pfs)
  | some idx =>
      let item := inv.getD idx dummyRecord
      let pfs2 := match item.photo with
        | some p => if p != "" && pfs.contains p then pfs.erase p else pfs
        | none => pfs
      (HResp.okDeleted, writeInv (inv.eraseIdx idx), pfs2)

/-- A store-mutating operation, for sequences of requests. -/
inductive Op where
  | register (req : RegisterReq) : Op
  | delete (id : Int) : Op

/-- The file state after one operation.  Deletion is run against an empty
photo file system, which does not affect the resulting store. -/
def applyOp (host port : String) (f : FileState) : Op → FileState
  | Op.register req => (postRegister host port f req).2
  | Op.delete i => (deleteInventory f [] i).2.1

/-- The file state after a sequence of operations. -/
def runOps (host port : String) (f : FileState) : List Op → FileState
  | [] => f
  | op :: ops => runOps host port (applyOp host port f op) ops

/-- The IDs assigned by the successful registrations of a sequence of
operations, in order. -/
def assignedIds (host port : String) (f : FileState) : List Op → List Int
  | [] => []
  | Op.register req :: ops =>
      match (postRegister host port f req).1 with
      | HResp.created item =>
          item.id :: assignedIds host port (applyOp host port f (Op.register req)) ops
      | _ => assignedIds host port (applyOp host port f (Op.register req)) ops
  | Op.delete i :: ops =>
      assignedIds host port (applyOp host port f (Op.delete i)) ops

/-! ### Basic facts about `List.foldl max`, the shape of `Math.max` -/

theorem le_foldl_max (x : Int) (xs : List Int) : x ≤ xs.foldl max x := by
  induction xs generalizing x with
  | nil => exact le_refl x
  | cons z zs ih => exact le_trans (le_max_left x z) (ih (max x z))

theorem mem_le_foldl_max (x : Int) (xs : List Int) :
    ∀ y ∈ xs, y ≤ xs.foldl max x := by
  induction xs generalizing x with
  | nil => intro y hy; cases hy
  | cons z zs ih =>
      intro y hy
      rcases List.mem_cons.mp hy with h | h
      · subst h
        exact le_trans (le_max_right x y) (le_foldl_max (max x y) zs)
      · exact ih (max x z) y h

theorem foldl_max_cases (x : Int) (xs : List Int) :
    xs.foldl max x = x ∨ xs.foldl max x ∈ xs := by
  induction xs generalizing x with
  | nil => exact Or.inl rfl
  | cons z zs ih =>
      rcases ih (max x z) with h | h
      · rcases max_cases x z with ⟨hm, _⟩ | ⟨hm, _⟩
        · exact Or.inl (by simpa [List.foldl_cons, hm] using h)
        · refine Or.inr (List.mem_cons.mpr (Or.inl ?_))
          simpa [List.foldl_cons, hm] using h
      · exact Or.inr (List.mem_cons.mpr (Or.inr (by simpa [List.foldl_cons] using h)))

/-! ### Facts about `nextId` -/

theorem lt_nextId (inv : List Record) (r : Record) (hr : r ∈ inv) :
    r.id < nextId inv := by
  cases inv with
  | nil => cases hr
  | cons i rest =>
      have hle : r.id ≤ (rest.map Record.id).foldl max i.id := by
        rcases List.mem_cons.mp hr with h | h
        · subst h; exact le_foldl_max _ _
        · exact mem_le_foldl_max i.id (rest.map Record.id) r.id
            (List.mem_map.mpr ⟨r, h, rfl⟩)
      have : nextId (i :: rest) = (rest.map Record.id).foldl max i.id + 1 := rfl
      omega

theorem nextId_eq_some_mem_add_one (inv : List Record) (h : inv ≠ []) :
    ∃ r ∈ inv, nextId inv = r.id + 1 := by
  cases inv with
  | nil => exact absurd rfl h
  | cons i rest =>
      rcases foldl_max_cases i.id (rest.map Record.id) with hm | hm
      · exact ⟨i, List.mem_cons_self i rest, by simp [nextId, hm]⟩
      · rcases List.mem_map.mp hm with ⟨r, hr, hid⟩
        exact ⟨r, List.mem_cons.mpr (Or.inr hr), by simp [nextId, ← hid]⟩

theorem nextId_append_of_le (inv : List Record) (r : Record)
    (h : ∀ x ∈ inv, x.id ≤ r.id) : nextId (inv ++ [r]) = r.id + 1 := by
  cases inv with
  | nil => rfl
  | cons i rest =>
      have hfold : ((rest ++ [r]).map Record.id).foldl max i.id
          = max ((rest.map Record.id).foldl max i.id) r.id := by
        simp [List.foldl_append]
      have hle : (rest.map Record.id).foldl max i.id ≤ r.id := by
        rcases foldl_max_cases i.id (rest.map Record.id) with hm | hm
        · rw [hm]; exact h i (List.mem_cons_self i rest)
        · rcases List.mem_map.mp hm with ⟨x, hx, hid⟩
          rw [← hid]; exact h x (List.mem_cons.mpr (Or.inr hx))
      have : nextId (i :: rest ++ [r])
          = ((rest ++ [r]).map Record.id).foldl max i.id + 1 := rfl
      rw [List.cons_append] at *
      omega

/-- C1: the next-ID computation used at registration returns `1` on the
empty store and `max(id) + 1` otherwise (every existing ID is strictly
below the new one, which is some existing ID plus one); in particular
`nextId [] = 1` and `nextId [{id:1},{id:3}] = 4`. -/
theorem nextId_correct :
    nextId [] = 1
    ∧ (∀ inv : List Record, inv ≠ [] →
        (∀ r ∈ inv, r.id < nextId inv) ∧ ∃ r ∈ inv, nextId inv = r.id + 1)
    ∧ nextId [⟨1, "a", none, none, none⟩, ⟨3, "b", none, none, none⟩] = 4 := by
  refine ⟨rfl, ?_, by decide⟩
  intro inv hne
  exact ⟨fun r hr => lt_nextId inv r hr, nextId_eq_some_mem_add_one inv hne⟩

/-- Witness for C1 at the store `[{id:1}, {id:3}]`. -/
theorem nextId_correct_witness :
    ([⟨1, "a", none, none, none⟩, ⟨3, "b", none, none, none⟩] : List Record) ≠ []
    ∧ ((∀ r ∈ ([⟨1, "a", none, none, none⟩,
          ⟨3, "b", none, none, none⟩] : List Record),
          r.id < nextId [⟨1, "a", none, none, none⟩, ⟨3, "b", none, none, none⟩])
       ∧ ∃ r ∈ ([⟨1, "a", none, none, none⟩,
          ⟨3, "b", none, none, none⟩] : List Record),
          nextId [⟨1, "a", none, none, none⟩, ⟨3, "b", none, none, none⟩]
            = r.id + 1) :=
  ⟨by decide, nextId_correct.2.1 _ (by decide)⟩

/-! ### Facts about `jsFindIndex` -/

theorem jsFindIndex_eq_none (p : Record → Bool) (l : List Record)
    (h : ∀ a ∈ l, p a = false) : jsFindIndex p l = none := by
  induction l with
  | nil => rfl
  | cons r rest ih =>
      have hr : p r = false := h r (List.mem_cons_self r rest)
      have hrest : jsFindIndex p rest = none :=
        ih fun a ha => h a (List.mem_cons.mpr (Or.inr ha))
      simp [jsFindIndex, hr, hrest]

theorem jsFindIndex_some (p : Record → Bool) (l : List Record) (i : Nat)
    (h : jsFindIndex p l = some i) :
    i < l.length ∧ p (l.getD i dummyRecord) = true := by
  induction l generalizing i with
  | nil => cases h
  | cons r rest ih =>
      by_cases hr : p r = true
      · have h0 : some 0 = some i := by simpa [jsFindIndex, hr] using h
        injection h0 with h0
        subst h0
        exact ⟨by simp, by simpa [List.getD] using hr⟩
      · have hr' : p r = false := by simpa using hr
        have h' : (jsFindIndex p rest).map (· + 1) = some i := by
          simpa [jsFindIndex, hr'] using h
        rcases Option.map_eq_some'.mp h' with ⟨j, hj, hji⟩
        rcases ih j hj with ⟨hlen, hp⟩
        subst hji
        exact ⟨by simpa using Nat.succ_lt_succ hlen, by simpa [List.getD] using hp⟩

/-! ### C4, C5: persistence round trip and soft-failing load -/

/-- C4: saving a record sequence and loading it back yields an equal
sequence, field for field (`writeInv` then `readInv`). -/
theorem save_load_roundtrip (x : List Record) : readInv (writeInv x) = x :=
  readInv_writeInv x

/-- C5: `readInv` returns the persisted sequence, and the empty sequence
when the file is missing, unreadable, or holds malformed JSON.  It is a
total function of the file state, so it never throws to its caller. -/
theorem load_never_throws :
    readInv FileState.missing = []
    ∧ readInv FileState.unreadable = []
    ∧ readInv FileState.malformed = []
    ∧ ∀ x : List Record, readInv (writeInv x) = x :=
  ⟨rfl, rfl, rfl, readInv_writeInv⟩

/-! ### C6: registration without a name -/

/-- C6: registering without the `inventory_name` field yields the 400
error response and leaves the file state untouched: no record is created
and no write occurs. -/
theorem register_missing_name (host port : String) (f : FileState)
    (req : RegisterReq) (h : req.inventory_name = none) :
    postRegister host port f req = (HResp.badRequest, f) := by
  simp [postRegister, jsTruthyOptStr, h]

/-- Witness for C6: a nameless request against a missing file. -/
theorem register_missing_name_witness :
    (⟨none, none, none⟩ : RegisterReq).inventory_name = none
    ∧ postRegister "h" "p" FileState.missing ⟨none, none, none⟩
        = (HResp.badRequest, FileState.missing) :=
  ⟨rfl, register_missing_name "h" "p" FileState.missing ⟨none, none, none⟩ rfl⟩

/-! ### C7: update of an absent ID -/

/-- C7: updating an ID absent from the store yields the 404 response and
leaves the persisted store unchanged: nothing is modified and no write
occurs. -/
theorem update_absent_id (f : FileState) (id : Int) (req : UpdateReq)
    (h : ∀ r ∈ readInv f, r.id ≠ id) :
    putInventory f id req = (HResp.notFound, f) := by
  have hnone : jsFindIndex (fun i => i.id == id) (readInv f) = none := by
    refine jsFindIndex_eq_none _ _ fun a ha => ?_
    simpa using h a ha
  simp [putInventory, hnone]

/-- Witness for C7: updating ID 2 in a store holding only ID 7. -/
theorem update_absent_id_witness :
    (∀ r ∈ readInv (writeInv [⟨7, "n", none, none, none⟩]), r.id ≠ 2)
    ∧ putInventory (writeInv [⟨7, "n", none, none, none⟩]) 2 ⟨some "m", none⟩
        = (HResp.notFound, writeInv [⟨7, "n", none, none, none⟩]) :=
  ⟨by decide, update_absent_id _ 2 ⟨some "m", none⟩ (by decide)⟩

/-! ### C3: the search resolver -/

/-- C3 counterexample: with the photo flag `"on"` and a record whose
`photoUrl` is the empty string — non-null, but falsy in JS — `doSearch`
returns the record with its description unchanged, not with the
` (Photo: )` suffix the claim requires for every non-null `photoUrl`. -/
theorem search_empty_photoUrl_cex :
    flagTruthy (FlagVal.str "on") = true
    ∧ (⟨7, "n", some "d", none, some ""⟩ : Record).photoUrl ≠ none
    ∧ (doSearch (writeInv [⟨7, "n", some "d", none, some ""⟩]) 7
        (FlagVal.str "on")).1 = some ⟨7, "n", some "d", none, some ""⟩
    ∧ (some "d" : Option String)
        ≠ some (jsCoerceStr (some "d") ++ " (Photo: " ++ "" ++ ")") := by
  exact ⟨by decide, by decide, by decide, by decide⟩

/-- C3 (amended): for every record found by search, the returned record is
a copy whose description carries the ` (Photo: <photoUrl>)` suffix exactly
when the flag is boolean `true` or the string `"on"` or `"true"` (and no
other value) and the record's `photoUrl` is non-null **and non-empty** (JS
truthiness); a record with a null — or empty-string — `photoUrl`, or a
falsy flag, is returned unchanged, a `description` that is absent being
coerced to the string `"undefined"` before the suffix is appended.  The
file state, hence the persisted sequence, is never changed by search. -/
theorem doSearch_spec (f : FileState) (id : Int) (v : FlagVal) (item : Record)
    (hfind : (readInv f).find? (fun i => i.id == id) = some item) :
    (doSearch f id v).2 = f
    ∧ (flagTruthy v = true ↔
        v = FlagVal.bool true ∨ v = FlagVal.str "on" ∨ v = FlagVal.str "true")
    ∧ (∀ u : String, flagTruthy v = true → item.photoUrl = some u → u ≠ "" →
        (doSearch f id v).1 = some { item with
          description := some (jsCoerceStr item.description
            ++ " (Photo: " ++ u ++ ")") })
    ∧ (flagTruthy v = false → (doSearch f id v).1 = some item)
    ∧ (item.photoUrl = none → (doSearch f id v).1 = some item)
    ∧ (item.photoUrl = some "" → (doSearch f id v).1 = some item) := by
  refine ⟨?_, ?_, ?_, ?_, ?_, ?_⟩
  · simp only [doSearch, hfind]
    split_ifs <;> rfl
  · simp [flagTruthy, or_comm, or_left_comm]
  · intro u hflag hurl hne
    simp [doSearch, hfind, hflag, hurl, jsTruthyOptStr, bne_iff_ne, hne]
  · intro hflag
    simp [doSearch, hfind, hflag]
  · intro hurl
    cases hf : flagTruthy v <;>
      simp [doSearch, hfind, hurl, jsTruthyOptStr, hf]
  · intro hurl
    cases hf : flagTruthy v <;>
      simp [doSearch, hfind, hurl, jsTruthyOptStr, hf]

/-- Witness for C3 at the spec's example: a record with
`photoUrl = "http://h/inventory/5/photo"`, `description = "d"`, searched
with the flag `"on"`. -/
theorem doSearch_spec_witness :
    ((readInv (writeInv [⟨5, "n", some "d", none,
        some "http://h/inventory/5/photo"⟩])).find? (fun i => i.id == 5)
      = some ⟨5, "n", some "d", none, some "http://h/inventory/5/photo"⟩)
    ∧ (doSearch (writeInv [⟨5, "n", some "d", none,
        some "http://h/inventory/5/photo"⟩]) 5 (FlagVal.str "on")).1
      = some ⟨5, "n", some ("d" ++ " (Photo: " ++ "http://h/inventory/5/photo"
          ++ ")"), none, some "http://h/inventory/5/photo"⟩
    ∧ (doSearch (writeInv [⟨5, "n", some "d", none,
        some "http://h/inventory/5/photo"⟩]) 5 (FlagVal.str "on")).2
      = writeInv [⟨5, "n", some "d", none,
          some "http://h/inventory/5/photo"⟩] := by
  have hfind : (readInv (writeInv [⟨5, "n", some "d", none,
      some "http://h/inventory/5/photo"⟩])).find? (fun i => i.id == 5)
      = some ⟨5, "n", some "d", none, some "http://h/inventory/5/photo"⟩ := by
    decide
  have h := doSearch_spec (writeInv [⟨5, "n", some "d", none,
      some "http://h/inventory/5/photo"⟩]) 5 (FlagVal.str "on")
      ⟨5, "n", some "d", none, some "http://h/inventory/5/photo"⟩ hfind
  refine ⟨hfind, ?_, h.1⟩
  have h3 := h.2.2.1 "http://h/inventory/5/photo" (by decide) rfl (by decide)
  simpa [jsCoerceStr] using h3

/-! ### C8: frame of a successful update -/

/-- C8: a successful update changes at most the `name` and `description`
of the targeted record — each only when the corresponding body field is
present — while its `id`, `photo` and `photoUrl` are untouched (`photoUrl`
is not recomputed), and every other record of the store is unchanged. -/
theorem update_frame (f : FileState) (id : Int) (req : UpdateReq) (idx : Nat)
    (hfind : jsFindIndex (fun i => i.id == id) (readInv f) = some idx) :
    ∃ item2 : Record,
      putInventory f id req
        = (HResp.okUpdated item2, writeInv ((readInv f).set idx item2))
      ∧ item2.id = ((readInv f).getD idx dummyRecord).id
      ∧ item2.photo = ((readInv f).getD idx dummyRecord).photo
      ∧ item2.photoUrl = ((readInv f).getD idx dummyRecord).photoUrl
      ∧ item2.name = req.name.getD ((readInv f).getD idx dummyRecord).name
      ∧ item2.description = (match req.description with
          | some d => some d
          | none => ((readInv f).getD idx dummyRecord).description)
      ∧ readInv (putInventory f id req).2 = (readInv f).set idx item2
      ∧ ((readInv f).set idx item2).length = (readInv f).length
      ∧ (∀ j : Nat, j ≠ idx →
          ((readInv f).set idx item2).getD j dummyRecord
            = (readInv f).getD j dummyRecord) := by
  refine ⟨{ (readInv f).getD idx dummyRecord with
      name := req.name.getD ((readInv f).getD idx dummyRecord).name
      description := match req.description with
        | some d => some d
        | none => ((readInv f).getD idx dummyRecord).description },
    ?_, rfl, rfl, rfl, rfl, rfl, ?_, by simp, ?_⟩
  · simp only [putInventory, hfind]
  · simp only [putInventory, hfind]
    exact readInv_writeInv _
  · intro j hj
    rw [List.getD_eq_getElem?_getD, List.getElem?_set_ne (Ne.symm hj),
      ← List.getD_eq_getElem?_getD]

/-- Witness for C8: updating only the description of record 7 in a
two-record store. -/
theorem update_frame_witness :
    jsFindIndex (fun i => i.id == 7)
        (readInv (writeInv [⟨7, "n", some "d", none, none⟩,
          ⟨8, "m", none, none, none⟩])) = some 0
    ∧ ∃ item2 : Record,
        putInventory (writeInv [⟨7, "n", some "d", none, none⟩,
            ⟨8, "m", none, none, none⟩]) 7 ⟨none, some "d2"⟩
          = (HResp.okUpdated item2,
             writeInv ((readInv (writeInv [⟨7, "n", some "d", none, none⟩,
               ⟨8, "m", none, none, none⟩])).set 0 item2))
        ∧ item2.id = 7 ∧ item2.photo = none ∧ item2.photoUrl = none
        ∧ item2.name = "n" ∧ item2.description = some "d2" := by
  have hfind : jsFindIndex (fun i => i.id == 7)
      (readInv (writeInv [⟨7, "n", some "d", none, none⟩,
        ⟨8, "m", none, none, none⟩])) = some 0 := by decide
  obtain ⟨item2, h1, h2, h3, h4, h5, h6, -⟩ :=
    update_frame (writeInv [⟨7, "n", some "d", none, none⟩,
      ⟨8, "m", none, none, none⟩]) 7 ⟨none, some "d2"⟩ 0 hfind
  refine ⟨hfind, item2, h1, ?_, ?_, ?_, ?_, ?_⟩
  · rw [h2]; decide
  · rw [h3]; decide
  · rw [h4]; decide
  · rw [h5]; decide
  · rw [h6]

/-! ### C9: deletion -/

/-- C9: deleting a present ID succeeds, removes exactly the first record
carrying that ID from subsequent loads (all other records unchanged, in
order), and removes its photo file from the photo file system when the
record has a truthy photo path naming an existing file; deleting an
absent ID yields 404 and changes neither the file nor the photo file
system. -/
theorem delete_spec (f : FileState) (pfs : List String) (id : Int) :
    ((∀ r ∈ readInv f, r.id ≠ id) →
      deleteInventory f pfs id = (HResp.notFound, f, pfs))
    ∧ (∀ idx : Nat, jsFindIndex (fun i => i.id == id) (readInv f) = some idx →
        (deleteInventory f pfs id).1 = HResp.okDeleted
        ∧ ((readInv f).getD idx dummyRecord).id = id
        ∧ readInv (deleteInventory f pfs id).2.1 = (readInv f).eraseIdx idx
        ∧ (∀ p : String, ((readInv f).getD idx dummyRecord).photo = some p →
            p ≠ "" → p ∈ pfs → pfs.Nodup →
            p ∉ (deleteInventory f pfs id).2.2)) := by
  constructor
  · intro h
    have hnone : jsFindIndex (fun i => i.id == id) (readInv f) = none := by
      refine jsFindIndex_eq_none _ _ fun a ha => ?_
      simpa using h a ha
    simp [deleteInventory, hnone]
  · intro idx hfind
    have hid : ((readInv f).getD idx dummyRecord).id = id := by
      have := (jsFindIndex_some _ _ _ hfind).2
      simpa using this
    refine ⟨?_, hid, ?_, ?_⟩
    · simp only [deleteInventory, hfind]
    · simp only [deleteInventory, hfind]
      exact readInv_writeInv _
    · intro p hp hne hmem hnd
      have hp' : ((readInv f)[idx]?.getD dummyRecord).photo = some p := by
        rw [← List.getD_eq_getElem?_getD]; exact hp
      have h222 : (deleteInventory f pfs id).2.2 = pfs.erase p := by
        simp [deleteInventory, hfind, hp', bne_iff_ne, hne, hmem]
      rw [h222]
      intro hcontra
      exact absurd rfl ((hnd.mem_erase_iff.mp hcontra).1)

/-- Witness for C9: delete ID 5 (absent) from a one-record store, and
delete ID 7 (present, with photo `/p/q` on disk) from it. -/
theorem delete_spec_witness :
    deleteInventory (writeInv [⟨7, "n", none, some "/p/q", none⟩])
        ["/p/q", "/p/r"] 5
      = (HResp.notFound, writeInv [⟨7, "n", none, some "/p/q", none⟩],
         ["/p/q", "/p/r"])
    ∧ (deleteInventory (writeInv [⟨7, "n", none, some "/p/q", none⟩])
        ["/p/q", "/p/r"] 7).1 = HResp.okDeleted
    ∧ readInv (deleteInventory (writeInv [⟨7, "n", none, some "/p/q", none⟩])
        ["/p/q", "/p/r"] 7).2.1
      = (readInv (writeInv [⟨7, "n", none, some "/p/q", none⟩])).eraseIdx 0
    ∧ "/p/q" ∉ (deleteInventory (writeInv [⟨7, "n", none, some "/p/q", none⟩])
        ["/p/q", "/p/r"] 7).2.2 := by
  have habs := (delete_spec (writeInv [⟨7, "n", none, some "/p/q", none⟩])
      ["/p/q", "/p/r"] 5).1 (by decide)
  have hpres := (delete_spec (writeInv [⟨7, "n", none, some "/p/q", none⟩])
      ["/p/q", "/p/r"] 7).2 0 (by decide)
  exact ⟨habs, hpres.1, hpres.2.2.1,
    hpres.2.2.2 "/p/q" (by decide) (by decide) (by decide) (by decide)⟩

/-! ### Handler shape lemmas -/

theorem postRegister_success (host port : String) (f : FileState)
    (req : RegisterReq) (h : jsTruthyOptStr req.inventory_name = true) :
    postRegister host port f req
      = (HResp.created (regItem host port (readInv f) req),
         writeInv (readInv f ++ [regItem host port (readInv f) req])) := by
  simp [postRegister, h]

theorem postRegister_fail (host port : String) (f : FileState)
    (req : RegisterReq) (h : jsTruthyOptStr req.inventory_name = false) :
    postRegister host port f req = (HResp.badRequest, f) := by
  simp [postRegister, h]

theorem deleteInventory_absent (f : FileState) (pfs : List String) (id : Int)
    (h : jsFindIndex (fun i => i.id == id) (readInv f) = none) :
    deleteInventory f pfs id = (HResp.notFound, f, pfs) := by
  simp [deleteInventory, h]

theorem deleteInventory_present_store (f : FileState) (pfs : List String)
    (id : Int) (idx : Nat)
    (h : jsFindIndex (fun i => i.id == id) (readInv f) = some idx) :
    (deleteInventory f pfs id).2.1 = writeInv ((readInv f).eraseIdx idx) := by
  simp only [deleteInventory, h]

theorem photoUrlFor_ne_empty (host port : String) (id : Int) :
    photoUrlFor host port id ≠ "" := by
  intro h
  have hd := congrArg String.length h
  rw [photoUrlFor] at hd
  simp only [String.length_append] at hd
  have h7 : "http://".length = 7 := rfl
  have h0 : "".length = 0 := rfl
  rw [h7, h0] at hd
  omega

/-- The augmented-description branch of `doSearch`: truthy flag and truthy
`photoUrl` give the record back with the suffixed description. -/
theorem doSearch_photo_branch (f : FileState) (item : Record) (v : FlagVal)
    (u : String)
    (hfind : (readInv f).find? (fun i => i.id == item.id) = some item)
    (hflag : flagTruthy v = true)
    (hurl : item.photoUrl = some u) (hne : u ≠ "") :
    (doSearch f item.id v).1 = some { item with
      description := some (jsCoerceStr item.description
        ++ " (Photo: " ++ u ++ ")") } := by
  simp [doSearch, hfind, hflag, hurl, jsTruthyOptStr, bne_iff_ne, hne]

/-! ### C10: search of a record registered without a description -/

/-- C10: a record registered without a `description` but with a photo is
stored with an absent description; searching for it with the photo flag
set yields the description string `"undefined (Photo: <photoUrl>)"` — the
JS coercion of `undefined` — rather than the suffix alone or an absent
description. -/
theorem register_then_search_undefined_desc (host port : String)
    (f : FileState) (req : RegisterReq) (pp : String)
    (hname : jsTruthyOptStr req.inventory_name = true)
    (hdesc : req.description = none)
    (hfile : req.filePath = some pp) :
    ∃ item : Record,
      (postRegister host port f req).1 = HResp.created item
      ∧ item.description = none
      ∧ item.photoUrl = some (photoUrlFor host port item.id)
      ∧ (doSearch (postRegister host port f req).2 item.id
          (FlagVal.str "on")).1.map Record.description
        = some (some ("undefined (Photo: "
            ++ photoUrlFor host port item.id ++ ")")) := by
  refine ⟨regItem host port (readInv f) req, ?_, ?_, ?_, ?_⟩
  · rw [postRegister_success host port f req hname]
  · simpa [regItem] using hdesc
  · simp [regItem, hfile]
  · have hsnd : (postRegister host port f req).2
        = writeInv (readInv f ++ [regItem host port (readInv f) req]) := by
      rw [postRegister_success host port f req hname]
    have hid : (regItem host port (readInv f) req).id = nextId (readInv f) := rfl
    have hnone : (readInv f).find?
        (fun i => i.id == (regItem host port (readInv f) req).id) = none := by
      rw [List.find?_eq_none]
      intro r hr
      have := lt_nextId (readInv f) r hr
      simp only [hid]
      intro hbeq
      exact absurd (by exact_mod_cast eq_of_beq hbeq) (by omega)
    have hfind : (readInv f ++ [regItem host port (readInv f) req]).find?
        (fun i => i.id == (regItem host port (readInv f) req).id)
        = some (regItem host port (readInv f) req) := by
      rw [List.find?_append, hnone, Option.none_or]
      simp
    have hurl : (regItem host port (readInv f) req).photoUrl
        = some (photoUrlFor host port (nextId (readInv f))) := by
      simp [regItem, hfile]
    rw [hsnd]
    have h := doSearch_photo_branch (writeInv (readInv f
        ++ [regItem host port (readInv f) req]))
      (regItem host port (readInv f) req) (FlagVal.str "on")
      (photoUrlFor host port (nextId (readInv f)))
      (by rw [readInv_writeInv]; exact hfind)
      rfl hurl (photoUrlFor_ne_empty host port (nextId (readInv f)))
    rw [h]
    simp [regItem, hdesc, jsCoerceStr, hid]

/-- Witness for C10: host `h`, port `p`, empty store, a request named
`"a"` with no description and an uploaded photo at `/t/x`. -/
theorem register_then_search_undefined_desc_witness :
    jsTruthyOptStr (⟨some "a", none, some "/t/x"⟩ : RegisterReq).inventory_name
        = true
    ∧ (⟨some "a", none, some "/t/x"⟩ : RegisterReq).description = none
    ∧ (⟨some "a", none, some "/t/x"⟩ : RegisterReq).filePath = some "/t/x"
    ∧ ∃ item : Record,
        (postRegister "h" "p" FileState.missing
            ⟨some "a", none, some "/t/x"⟩).1 = HResp.created item
        ∧ item.description = none
        ∧ item.photoUrl = some (photoUrlFor "h" "p" item.id)
        ∧ (doSearch (postRegister "h" "p" FileState.missing
              ⟨some "a", none, some "/t/x"⟩).2 item.id
            (FlagVal.str "on")).1.map Record.description
          = some (some ("undefined (Photo: "
              ++ photoUrlFor "h" "p" item.id ++ ")")) :=
  ⟨rfl, rfl, rfl,
    register_then_search_undefined_desc "h" "p" FileState.missing
      ⟨some "a", none, some "/t/x"⟩ "/t/x" rfl rfl rfl⟩

/-! ### C2: ID uniqueness and monotonicity over operation sequences -/

theorem nodup_ids_applyOp (host port : String) (f : FileState) (op : Op)
    (h : ((readInv f).map Record.id).Nodup) :
    ((readInv (applyOp host port f op)).map Record.id).Nodup := by
  cases op with
  | register req =>
      by_cases hn : jsTruthyOptStr req.inventory_name = true
      · have hsnd : readInv (applyOp host port f (Op.register req))
            = readInv f ++ [regItem host port (readInv f) req] := by
          simp [applyOp, postRegister_success host port f req hn,
            readInv_writeInv]
        rw [hsnd, List.map_append]
        refine List.nodup_append.mpr ⟨h, List.nodup_singleton _, ?_⟩
        intro a ha hb
        rcases List.mem_map.mp ha with ⟨r, hr, rfl⟩
        have hb' : r.id = nextId (readInv f) := by simpa [regItem] using hb
        have := lt_nextId (readInv f) r hr
        omega
      · have hn' : jsTruthyOptStr req.inventory_name = false := by
          simpa using hn
        have happ : applyOp host port f (Op.register req) = f := by
          simp [applyOp, postRegister_fail host port f req hn']
        rw [happ]; exact h
  | delete i =>
      cases hidx : jsFindIndex (fun r => r.id == i) (readInv f) with
      | none =>
          have happ : applyOp host port f (Op.delete i) = f := by
            simp [applyOp, deleteInventory_absent f [] i hidx]
          rw [happ]; exact h
      | some idx =>
          have hsnd : readInv (applyOp host port f (Op.delete i))
              = (readInv f).eraseIdx idx := by
            simp [applyOp, deleteInventory_present_store f [] i idx hidx,
              readInv_writeInv]
          rw [hsnd]
          exact List.Nodup.sublist
            (List.Sublist.map Record.id (List.eraseIdx_sublist (readInv f) idx)) h

theorem nodup_ids_runOps (host port : String) (ops : List Op) (f : FileState)
    (h : ((readInv f).map Record.id).Nodup) :
    ((readInv (runOps host port f ops)).map Record.id).Nodup := by
  induction ops generalizing f with
  | nil => exact h
  | cons op ops ih => exact ih _ (nodup_ids_applyOp host port f op h)

theorem assignedIds_lb (host port : String) (ops : List Op) (f : FileState)
    (hreg : ∀ op ∈ ops, ∃ req, op = Op.register req) :
    ∀ a ∈ assignedIds host port f ops, ∀ r ∈ readInv f, r.id < a := by
  induction ops generalizing f with
  | nil => intro a ha; cases ha
  | cons op ops ih =>
      obtain ⟨req, rfl⟩ := hreg op (List.mem_cons_self op ops)
      have hreg' : ∀ op ∈ ops, ∃ req, op = Op.register req :=
        fun op hop => hreg op (List.mem_cons.mpr (Or.inr hop))
      intro a ha r hr
      by_cases hn : jsTruthyOptStr req.inventory_name = true
      · have hfst : (postRegister host port f req).1
            = HResp.created (regItem host port (readInv f) req) := by
          rw [postRegister_success host port f req hn]
        have htrace : assignedIds host port f (Op.register req :: ops)
            = (regItem host port (readInv f) req).id
              :: assignedIds host port (applyOp host port f (Op.register req))
                  ops := by
          simp [assignedIds, hfst]
        rcases List.mem_cons.mp (htrace ▸ ha) with h1 | h1
        · subst h1
          exact lt_nextId (readInv f) r hr
        · have hf' : readInv (applyOp host port f (Op.register req))
              = readInv f ++ [regItem host port (readInv f) req] := by
            simp [applyOp, postRegister_success host port f req hn,
              readInv_writeInv]
          refine ih (applyOp host port f (Op.register req)) hreg' a h1 r ?_
          rw [hf']
          exact List.mem_append.mpr (Or.inl hr)
      · have hn' : jsTruthyOptStr req.inventory_name = false := by
          simpa using hn
        have hfst : (postRegister host port f req).1 = HResp.badRequest := by
          rw [postRegister_fail host port f req hn']
        have happ : applyOp host port f (Op.register req) = f := by
          simp [applyOp, postRegister_fail host port f req hn']
        have htrace : assignedIds host port f (Op.register req :: ops)
            = assignedIds host port f ops := by
          simp [assignedIds, hfst, happ]
        exact ih f hreg' a (htrace ▸ ha) r hr

theorem assignedIds_chain (host port : String) (ops : List Op) (f : FileState)
    (hreg : ∀ op ∈ ops, ∃ req, op = Op.register req) :
    List.Chain' (· < ·) (assignedIds host port f ops) := by
  induction ops generalizing f with
  | nil => simp [assignedIds]
  | cons op ops ih =>
      obtain ⟨req, rfl⟩ := hreg op (List.mem_cons_self op ops)
      have hreg' : ∀ op ∈ ops, ∃ req, op = Op.register req :=
        fun op hop => hreg op (List.mem_cons.mpr (Or.inr hop))
      by_cases hn : jsTruthyOptStr req.inventory_name = true
      · have hfst : (postRegister host port f req).1
            = HResp.created (regItem host port (readInv f) req) := by
          rw [postRegister_success host port f req hn]
        have htrace : assignedIds host port f (Op.register req :: ops)
            = (regItem host port (readInv f) req).id
              :: assignedIds host port (applyOp host port f (Op.register req))
                  ops := by
          simp [assignedIds, hfst]
        rw [htrace, List.chain'_cons']
        refine ⟨?_, ih _ hreg'⟩
        intro b hb
        have hbmem : b ∈ assignedIds host port
            (applyOp host port f (Op.register req)) ops :=
          List.mem_of_mem_head? hb
        have hf' : readInv (applyOp host port f (Op.register req))
            = readInv f ++ [regItem host port (readInv f) req] := by
          simp [applyOp, postRegister_success host port f req hn,
            readInv_writeInv]
        refine assignedIds_lb host port ops
          (applyOp host port f (Op.register req)) hreg' b hbmem
          (regItem host port (readInv f) req) ?_
        rw [hf']
        exact List.mem_append.mpr (Or.inr (List.mem_singleton.mpr rfl))
      · have hn' : jsTruthyOptStr req.inventory_name = false := by
          simpa using hn
        have hfst : (postRegister host port f req).1 = HResp.badRequest := by
          rw [postRegister_fail host port f req hn']
        have happ : applyOp host port f (Op.register req) = f := by
          simp [applyOp, postRegister_fail host port f req hn']
        have htrace : assignedIds host port f (Op.register req :: ops)
            = assignedIds host port f ops := by
          simp [assignedIds, hfst, happ]
        rw [htrace]
        exact ih f hreg'

/-- C2 counterexample: from the empty store, register, register, delete
ID 2 (which succeeds), register again — the assigned-ID trace is
`[1, 2, 2]`: ID 2 is assigned again after its record was deleted, so IDs
are reused after a deletion and the assigned sequence is not strictly
increasing across it. -/
theorem id_reuse_after_delete_cex :
    assignedIds "h" "p" FileState.missing
      [Op.register ⟨some "a", none, none⟩, Op.register ⟨some "a", none, none⟩,
       Op.delete 2, Op.register ⟨some "a", none, none⟩] = [1, 2, 2]
    ∧ (deleteInventory (runOps "h" "p" FileState.missing
        [Op.register ⟨some "a", none, none⟩,
         Op.register ⟨some "a", none, none⟩]) [] 2).1 = HResp.okDeleted := by
  exact ⟨rfl, rfl⟩

/-- C2 (amended): over every sequence of register/delete operations from
the empty store, the IDs in the store are pairwise distinct at every state
(intermediate states are instances, every prefix being itself such a
sequence), and every ID present is strictly below the next ID that would
be assigned; for deletion-free sequences the assigned-ID trace is strictly
increasing.  After a deletion, however, an ID can be reused (see the
counterexample). -/
theorem register_ids_unique_and_monotone (host port : String) (f : FileState)
    (ops : List Op) (hf : readInv f = []) :
    ((readInv (runOps host port f ops)).map Record.id).Nodup
    ∧ (∀ r ∈ readInv (runOps host port f ops),
        r.id < nextId (readInv (runOps host port f ops)))
    ∧ ((∀ op ∈ ops, ∃ req, op = Op.register req) →
        List.Chain' (· < ·) (assignedIds host port f ops)) := by
  refine ⟨?_, ?_, ?_⟩
  · refine nodup_ids_runOps host port ops f ?_
    rw [hf]; exact List.nodup_nil
  · intro r hr; exact lt_nextId _ r hr
  · intro hreg; exact assignedIds_chain host port ops f hreg

/-- Witness for C2 at two registrations from the empty store. -/
theorem register_ids_unique_and_monotone_witness :
    readInv FileState.missing = []
    ∧ ((readInv (runOps "h" "p" FileState.missing
        [Op.register ⟨some "a", none, none⟩,
         Op.register ⟨some "a", none, none⟩])).map Record.id).Nodup
    ∧ List.Chain' (· < ·) (assignedIds "h" "p" FileState.missing
        [Op.register ⟨some "a", none, none⟩,
         Op.register ⟨some "a", none, none⟩]) := by
  have hro : ∀ op ∈ [Op.register (⟨some "a", none, none⟩ : RegisterReq),
      Op.register ⟨some "a", none, none⟩], ∃ req, op = Op.register req := by
    intro op hop
    rcases List.mem_cons.mp hop with h1 | h1
    · exact ⟨_, h1⟩
    · rcases List.mem_cons.mp h1 with h2 | h2
      · exact ⟨_, h2⟩
      · cases h2
  have h := register_ids_unique_and_monotone "h" "p" FileState.missing
    [Op.register ⟨some "a", none, none⟩, Op.register ⟨some "a", none, none⟩]
    rfl
  exact ⟨rfl, h.1, h.2.2 hro⟩
